import Mathlib

/-!
Verification of the legacy `.doc` text-extraction subsystem of the
Document-Reader repository (`src/processors/word.py`).

The Python functions are shallowly embedded as pure Lean functions.  Byte
buffers are `List Nat` (one natural per byte); streams of the OLE compound
file are a name-indexed association list in directory order.  The library
codec `bytes.decode(enc, errors='ignore')` is not part of the repository,
so it is modelled as an explicit function parameter `dec : Dec`; the
UTF-16LE whitelist extractor `_extract_utf16le_text` is repository code and
is embedded concretely.  Floating-point thresholds in the source
(`len(text) * 0.05`, `len(line) * 0.3`) are embedded as the exact integer
comparisons `20 * cjk < len` and `10 * meaningful < 3 * len`, which agree
with the double-precision comparisons for every text length below 2^52.
Python character classes (`\w`, `\s`, `str.isalnum`, `str.strip`) are
embedded over the ASCII + CJK repertoire that the tool targets.
-/

set_option maxRecDepth 100000

namespace DocReader

/-- A byte buffer: one natural number (expected < 256) per byte. -/
abbrev Bytes := List Nat

/-- Embeds `struct.unpack_from('<H', b, i)`: little-endian 16-bit read. -/
def le16 (b : Bytes) (i : Nat) : Nat :=
  b.getD i 0 + 256 * b.getD (i + 1) 0

/-- Embeds `struct.unpack_from('<I', b, i)`: little-endian 32-bit read. -/
def le32 (b : Bytes) (i : Nat) : Nat :=
  b.getD i 0 + 256 * b.getD (i + 1) 0 + 65536 * b.getD (i + 2) 0
    + 16777216 * b.getD (i + 3) 0

/-- Python slice `b[start:stop]` (clamping, as in Python). -/
def slice (b : Bytes) (start stop : Nat) : Bytes :=
  (b.take stop).drop start

/-- Overwrite bytes of `l` starting at index `i` with `vs` (test-data helper). -/
def patch (l : Bytes) (i : Nat) (vs : Bytes) : Bytes :=
  l.take i ++ vs ++ l.drop (i + vs.length)

/-- The control characters removed by the first `re.sub` of `_clean_doc_text`:
`[\x00-\x08\x0b\x0c\x0e-\x1f\x7f]`. -/
def isRemovedCtrl (c : Char) : Bool :=
  c.toNat ≤ 0x08 || c.toNat = 0x0b || c.toNat = 0x0c ||
  (0x0e ≤ c.toNat && c.toNat ≤ 0x1f) || c.toNat = 0x7f

/-- Python's whitespace class (`\s` of `re`, and the set stripped by
`str.strip`), over the repertoire relevant to this tool. -/
def isPySpace (c : Char) : Bool :=
  c = ' ' || c = '\t' || c = '\n' || c = '\r' ||
  c.toNat = 0x0b || c.toNat = 0x0c ||
  (0x1c ≤ c.toNat && c.toNat ≤ 0x1f) || c.toNat = 0x85 || c.toNat = 0xa0 ||
  c.toNat = 0x1680 || (0x2000 ≤ c.toNat && c.toNat ≤ 0x200a) ||
  c.toNat = 0x2028 || c.toNat = 0x2029 || c.toNat = 0x202f ||
  c.toNat = 0x205f || c.toNat = 0x3000

/-- CJK unified ideographs `一-鿿`, the range the source tests with
`'一' <= c <= '鿿'`. -/
def isCJK (c : Char) : Bool :=
  0x4E00 ≤ c.toNat && c.toNat ≤ 0x9FFF

/-- Python `\w` (word characters), over the ASCII/CJK/full-width repertoire. -/
def isPyWord (c : Char) : Bool :=
  c.isAlphanum || c = '_' || isCJK c ||
  (0x3400 ≤ c.toNat && c.toNat ≤ 0x4DBF)

/-- The character class kept by the second `re.sub` of `_clean_doc_text`:
`[\w\s一-鿿　-〿＀-￯,.;:!?()（）【】“”‘’。，；：！？、]`
(runs of characters outside it are collapsed to a single space). -/
def isAllowed (c : Char) : Bool :=
  isPyWord c || isPySpace c || isCJK c ||
  (0x3000 ≤ c.toNat && c.toNat ≤ 0x303F) ||
  (0xFF00 ≤ c.toNat && c.toNat ≤ 0xFFEF) ||
  c = ',' || c = '.' || c = ';' || c = ':' || c = '!' || c = '?' ||
  c = '(' || c = ')' ||
  c.toNat = 0x2018 || c.toNat = 0x2019 || c.toNat = 0x201C || c.toNat = 0x201D

/-- Embeds `c.isalnum() or '一' <= c <= '鿿'`, the "meaningful character"
test of `_clean_doc_text`, over the ASCII + CJK repertoire. -/
def isMeaningful (c : Char) : Bool :=
  c.isAlphanum || isCJK c

/-- First step of `_clean_doc_text`: drop the removed control characters. -/
def removeCtrl (l : List Char) : List Char :=
  l.filter (fun c => !isRemovedCtrl c)

/-- Second step of `_clean_doc_text`: collapse each maximal run of
disallowed characters into one space.  The flag records whether we are
inside such a run. -/
def collapseGo : Bool → List Char → List Char
  | _, [] => []
  | inRun, c :: cs =>
    if isAllowed c then c :: collapseGo false cs
    else if inRun then collapseGo inRun cs
    else ' ' :: collapseGo true cs

/-- Python `text.split('\n')` on a character list. -/
def splitLines : List Char → List (List Char)
  | [] => [[]]
  | c :: cs =>
    if c = '\n' then [] :: splitLines cs
    else
      match splitLines cs with
      | [] => [[c]]
      | l :: ls => (c :: l) :: ls

/-- Python `line.strip()` on a character list. -/
def trimLine (l : List Char) : List Char :=
  ((l.dropWhile isPySpace).reverse.dropWhile isPySpace).reverse

/-- The line filter of `_clean_doc_text`: keep a line iff its length is at
least 2 and at least 30% of its characters are meaningful (the source drops
lines with `len(line) < 2` or `meaningful_chars < len(line) * 0.3`). -/
def keepLine (l : List Char) : Bool :=
  2 ≤ l.length && 3 * l.length ≤ 10 * l.countP isMeaningful

/-- Python `'\n'.join(lines)` on character lists. -/
def joinLines : List (List Char) → List Char
  | [] => []
  | [l] => l
  | l :: ls => l ++ '\n' :: joinLines ls

/-- The per-line stage of `_clean_doc_text`: split, strip, filter. -/
def cleanLines (l : List Char) : List (List Char) :=
  (((splitLines (collapseGo false (removeCtrl l))).map trimLine).filter keepLine)

/-- Embeds `WordProcessor._clean_doc_text`. -/
def cleanDocText (s : String) : String :=
  ⟨joinLines (cleanLines s.toList)⟩

/-- Python `s.strip()`. -/
def pyStrip (s : String) : String :=
  ⟨trimLine s.toList⟩

/-- An abstract model of `bytes.decode(enc, errors='ignore')`: the library
codec, which is not part of this repository, mapping an encoding name and a
byte buffer to text. -/
abbrev Dec := String → Bytes → String

/-- The code-point whitelist of `_extract_utf16le_text`: printable ASCII,
CJK unified ideographs, CJK extension A, full-width forms, CJK punctuation,
CR/LF mapped to a newline and TAB mapped to a space; everything else is
dropped. -/
def utf16Char (code : Nat) : Option Char :=
  if 0x20 ≤ code ∧ code ≤ 0x7E then some (Char.ofNat code)
  else if 0x4E00 ≤ code ∧ code ≤ 0x9FFF then some (Char.ofNat code)
  else if 0x3400 ≤ code ∧ code ≤ 0x4DBF then some (Char.ofNat code)
  else if 0xFF00 ≤ code ∧ code ≤ 0xFFEF then some (Char.ofNat code)
  else if 0x3000 ≤ code ∧ code ≤ 0x303F then some (Char.ofNat code)
  else if code = 0x0D ∨ code = 0x0A then some '\n'
  else if code = 0x09 then some ' '
  else none

/-- The 16-bit little-endian code units read by the loop of
`_extract_utf16le_text` (`while i + 1 < len(data)`, step 2; a trailing odd
byte is ignored). -/
def utf16Pairs : Bytes → List Nat
  | b0 :: b1 :: rest => (b0 + 256 * b1) :: utf16Pairs rest
  | _ => []

/-- Embeds `WordProcessor._extract_utf16le_text`. -/
def extractUtf16leText (data : Bytes) : String :=
  cleanDocText ⟨(utf16Pairs data).filterMap utf16Char⟩

/-- One decode candidate of `_fallback_extract_text_from_data`: the tuple
`(encoding, text, len(text))` appended to `results`. -/
structure Cand where
  enc : String
  txt : String
  len : Nat
deriving DecidableEq

/-- Embeds `any('一' <= c <= '鿿' for c in txt)`. -/
def hasCJKStr (s : String) : Bool :=
  s.toList.any isCJK

/-- The candidate list built by `_fallback_extract_text_from_data`:
declared codepage, then the UTF-16LE whitelist extraction, then the
remaining generic encodings `utf-8` and `cp1252`. -/
def buildResults (dec : Dec) (cp : String) (data : Bytes) : List Cand :=
  (let c := cleanDocText (dec cp data)
   if c ≠ "" then [⟨cp, c, c.length⟩] else []) ++
  (let t := extractUtf16leText data
   if t ≠ "" then [⟨"utf16", t, t.length⟩] else []) ++
  ((["utf-8", "cp1252"].filter (fun e => e ≠ cp)).filterMap (fun e =>
    let c := cleanDocText (dec e data)
    if c ≠ "" then some ⟨e, c, c.length⟩ else none))

/-- Python `max(c :: cs, key=lambda x: x.len)`: the first candidate of
maximal stored length (`max` keeps the earlier element on ties). -/
def pickMax (c : Cand) (cs : List Cand) : Cand :=
  cs.foldl (fun b x => if b.len < x.len then x else b) c

/-- The selection step of `_fallback_extract_text_from_data`: prefer the
longest CJK-bearing candidate; otherwise take the longest candidate; empty
candidate list yields the empty string. -/
def selectBest : List Cand → String
  | [] => ""
  | r :: rest =>
    match (r :: rest).filter (fun x => hasCJKStr x.txt) with
    | c :: cs => (pickMax c cs).txt
    | [] => (pickMax r rest).txt

/-- Embeds `WordProcessor._fallback_extract_text_from_data`. -/
def fallbackExtractTextFromData (dec : Dec) (cp : String) (data : Bytes) : String :=
  selectBest (buildResults dec cp data)

/-- The opened OLE compound file as seen through `olefile`: whether the raw
input has a valid compound-file signature (`olefile.isOleFile`), the named
streams in directory order (`listdir`/`exists`/`openstream`), and the
numeric codepage of the property-set metadata when available
(`get_metadata().codepage`; `none` models absent or failing metadata). -/
structure OleInput where
  isOle : Bool
  streams : List (String × Bytes)
  metaCodepage : Option Nat
deriving DecidableEq

/-- Embeds `ole.exists(name)`. -/
def OleInput.streamExists (f : OleInput) (n : String) : Bool :=
  f.streams.any (fun st => st.1 = n)

/-- Embeds `ole.openstream(name).read()` (empty for a missing stream; the embedding
only reads streams whose existence the source has checked). -/
def OleInput.openStream (f : OleInput) (n : String) : Bytes :=
  ((f.streams.find? (fun st => st.1 = n)).map (fun st => st.2)).getD []

/-- Python `sep.join(parts)`. -/
def joinSep (sep : String) : List String → String
  | [] => ""
  | [s] => s
  | s :: ss => s ++ sep ++ joinSep sep ss

/-- Embeds `WordProcessor._fallback_extract_text`: scan every stream of the
container, keep per-stream results longer than 100 characters, join them
with a blank line in directory order. -/
def fallbackExtractText (dec : Dec) (cp : String) (f : OleInput) : String :=
  joinSep "\n\n"
    ((f.streams.map (fun st => fallbackExtractTextFromData dec cp st.2)).filter
      (fun t => 100 < t.length))

/-- The fixed codepage table of `_get_doc_codepage` with Python's
`dict.get(cp, f'cp{cp}')` default. -/
def codepageName (n : Nat) : String :=
  if n = 936 then "gbk"
  else if n = 950 then "big5"
  else if n = 932 then "shift_jis"
  else if n = 949 then "euc-kr"
  else if n = 1252 then "cp1252"
  else if n = 1251 then "cp1251"
  else if n = 65001 then "utf-8"
  else "cp" ++ toString n

/-- Embeds `WordProcessor._get_doc_codepage`: `gbk` when the metadata or its
codepage is absent (or the codepage is the falsy 0), otherwise the table
lookup with the `cp<N>` default. -/
def getDocCodepage (meta : Option Nat) : String :=
  match meta with
  | some n => if n ≠ 0 then codepageName n else "gbk"
  | none => "gbk"

/-- Which code path produced the extracted text.  The source has no such
field; this instrumentation tag records, for verification, whether the text
came from the simple in-order region (`TryStructured`'s simple path), from
the heuristic byte-scan of the `WordDocument` buffer alone, or from the
heuristic scan over every stream of the container. -/
inductive Strategy
  | simple
  | heuristicData
  | heuristicStreams
deriving DecidableEq

/-- Embeds `WordProcessor._extract_from_pcd`: the source ignores the piece
descriptor bytes entirely and extracts readable text from the whole
`WordDocument` buffer (its own comment calls this simplified handling). -/
def extractFromPcd (dec : Dec) (cp : String) (pcd word : Bytes) : String :=
  fallbackExtractTextFromData dec cp word

/-- The tag-length-value walk of `_parse_clx`: tag `0x01` skips a 2-byte
length-prefixed formatting block, tag `0x02` reads a 4-byte length-prefixed
piece-table payload and stops, anything else stops; truncated headers stop
the walk.  Returns the collected `text_parts`.  The walk advances by at
least 3 bytes per step, so a fuel of `clx.length + 1` (supplied by
`parseClx`) never runs out before the source's loop exits. -/
def parseClxLoop (dec : Dec) (cp : String) (clx word : Bytes) :
    Nat → Nat → List String
  | 0, _ => []
  | fuel + 1, offset =>
    if offset < clx.length then
      let clxt := clx.getD offset 0
      if clxt = 0x01 then
        if clx.length ≤ offset + 2 then []
        else parseClxLoop dec cp clx word fuel (offset + 3 + le16 clx (offset + 1))
      else if clxt = 0x02 then
        if clx.length ≤ offset + 4 then []
        else
          let lcb := le32 clx (offset + 1)
          let t := extractFromPcd dec cp (slice clx (offset + 5) (offset + 5 + lcb)) word
          if t ≠ "" then [t] else []
      else []
    else []

/-- Embeds `WordProcessor._parse_clx`: join the collected parts with newlines, or
fall back to the heuristic byte-scan of the `WordDocument` buffer when no
part was collected. -/
def parseClx (dec : Dec) (cp : String) (clx word : Bytes) : String × Strategy :=
  match parseClxLoop dec cp clx word (clx.length + 1) 0 with
  | [] => (fallbackExtractTextFromData dec cp word, .heuristicData)
  | parts => (joinSep "\n" parts, .heuristicData)

/-- Embeds `WordProcessor._extract_from_piece_table`: choose the table stream named
by the FIB flag (falling back to the alternate name), read the CLX window
`[fcClx, fcClx+lcbClx)` out of it when the window is valid, and parse it;
otherwise scan every stream heuristically. -/
def extractFromPieceTable (dec : Dec) (cp : String) (f : OleInput)
    (word : Bytes) (use1table : Bool) : String × Strategy :=
  let n1 := if use1table then "1Table" else "0Table"
  let n2 := if use1table then "0Table" else "1Table"
  let name? : Option String :=
    if f.streamExists n1 then some n1
    else if f.streamExists n2 then some n2
    else none
  match name? with
  | none => (fallbackExtractText dec cp f, .heuristicStreams)
  | some nm =>
    let tbl := f.openStream nm
    if 0x1AA ≤ word.length then
      let fcClx := le32 word 0x1A2
      let lcbClx := le32 word 0x1A6
      if 0 < fcClx ∧ 0 < lcbClx ∧ fcClx + lcbClx ≤ tbl.length then
        parseClx dec cp (slice tbl fcClx (fcClx + lcbClx)) word
      else (fallbackExtractText dec cp f, .heuristicStreams)
    else (fallbackExtractText dec cp f, .heuristicStreams)

/-- Embeds `WordProcessor._extract_doc_text_from_ole`: parse the FIB of the
`WordDocument` stream; on a short stream or bad magic fall back to the
heuristic scan of every stream; for a non-complex document with positive
`fcMin`/`ccpText` and an in-range text window, return the cleaned
declared-codepage decode of `[fcMin, fcMin+ccpText)` when it is plausibly
long (more than 50 characters); otherwise continue with the piece table. -/
def extractDocTextFromOle (dec : Dec) (cp : String) (f : OleInput) :
    String × Strategy :=
  let data := f.openStream "WordDocument"
  if data.length < 0x200 then (fallbackExtractText dec cp f, .heuristicStreams)
  else if le16 data 0x00 ≠ 0xA5EC then
    (fallbackExtractText dec cp f, .heuristicStreams)
  else
    let flags := le16 data 0x0A
    let use1table : Bool := flags &&& 0x0200 != 0
    let fcMin := le32 data 0x18
    let ccpText := le32 data 0x4C
    let simple? : Option String :=
      if flags &&& 0x0004 = 0 ∧ 0 < fcMin ∧ 0 < ccpText ∧
          fcMin + ccpText ≤ data.length then
        let cleaned := cleanDocText (dec cp (slice data fcMin (fcMin + ccpText)))
        if cleaned ≠ "" ∧ 50 < cleaned.length then some cleaned else none
      else none
    match simple? with
    | some t => (t, .simple)
    | none => extractFromPieceTable dec cp f data use1table

/-- The result of `_process_doc_with_olefile`, reduced to the parts the
claims concern: the content items (the stripped extracted text when
non-empty) and the instrumentation strategy tag. -/
structure DocRes where
  content : List String
  strategy : Strategy
deriving DecidableEq

/-- The two `raise ValueError` sites of `_process_doc_with_olefile`:
`不是有效的 OLE 文件` (not a compound file — the spec's
`NotACompoundFileError`) and `不是有效的 Word 文档` (no `WordDocument`
stream — the spec's `NotAWordBinaryError`). -/
inductive OleError
  | notOleFile
  | notWordDoc
deriving DecidableEq

/-- Outcome of `_process_doc_with_olefile`. -/
inductive OleOutcome
  | ok (r : DocRes)
  | error (e : OleError)
deriving DecidableEq

/-- Embeds `WordProcessor._process_doc_with_olefile`: reject non-OLE input, reject
containers without a `WordDocument` stream, otherwise resolve the codepage
and extract. -/
def processDocWithOlefile (dec : Dec) (f : OleInput) : OleOutcome :=
  if f.isOle = false then .error .notOleFile
  else if f.streamExists "WordDocument" = false then .error .notWordDoc
  else
    let cp := getDocCodepage f.metaCodepage
    let ts := extractDocTextFromOle dec cp f
    let content := if pyStrip ts.1 ≠ "" then [pyStrip ts.1] else []
    .ok ⟨content, ts.2⟩

/-- Number of CJK characters of a string (`sum(1 for c in text if ...)`). -/
def cjkCount (s : String) : Nat :=
  s.toList.countP isCJK

/-- The warning text appended by `_process_doc` when the extracted text
looks like a bad decode. -/
def caveatWarning : String :=
  "\n\n---\n**注意**: DOC 文件解析可能不完整。建议安装 Microsoft Word 或将文件转换为 DOCX/PDF 格式以获得更好的效果。"

/-- The quality check of `_process_doc`: when there is content and the first
text is longer than 100 characters with CJK density below 5%
(`chinese_chars < len(text) * 0.05`, exactly `20 * cjk < len`), append the
caveat to it. -/
def addCaveat (content : List String) : List String :=
  match content with
  | [] => []
  | t :: rest =>
    if 100 < t.length ∧ 20 * cjkCount t < t.length then
      (t ++ caveatWarning) :: rest
    else t :: rest

/-- Outcome of `_process_doc` on a non-Windows host: either a result or the
final `raise ValueError('错误: 无法处理 DOC 文件 ...')`. -/
inductive DocOutcome
  | ok (r : DocRes)
  | failed
deriving DecidableEq

/-- Embeds `WordProcessor._process_doc` (non-Windows path): run the olefile
extractor; on success apply the quality caveat; any failure is absorbed and
the generic fatal error is raised. -/
def processDoc (dec : Dec) (f : OleInput) : DocOutcome :=
  match processDocWithOlefile dec f with
  | .error _ => .failed
  | .ok r => .ok ⟨addCaveat r.content, r.strategy⟩

/-- One piece of the piece table, as the spec's data model describes it: a
file offset into the `WordDocument` stream, a character count, and a one-bit
encoding flag (8-bit vs UTF-16LE). -/
structure PieceDescriptor where
  fc : Nat
  cpLen : Nat
  utf16 : Bool
deriving DecidableEq

/-- Modelled from the spec: decoding the piece-table payload into piece
descriptors is absent from the source (`_extract_from_pcd` never reads the
payload), so the payload layout is modelled here from the spec's
description of the piece table — an ordered list of descriptors mapping
logical text positions to physical byte ranges and per-range encoding — in
its standard binary form: `n+1` 4-byte character positions followed by `n`
8-byte descriptors whose 4-byte `fc` word (at descriptor offset 2) carries
the byte offset and, in bit 30, the compressed/8-bit flag (a compressed
offset is halved). -/
def parsePlcPcd (b : Bytes) : List PieceDescriptor :=
  if b.length < 16 ∨ (b.length - 4) % 12 ≠ 0 then []
  else
    let n := (b.length - 4) / 12
    (List.range n).map (fun i =>
      let cp0 := le32 b (4 * i)
      let cp1 := le32 b (4 * (i + 1))
      let fcRaw := le32 b (4 * (n + 1) + 8 * i + 2)
      if fcRaw &&& 0x40000000 ≠ 0 then
        ⟨(fcRaw &&& 0x3FFFFFFF) / 2, cp1 - cp0, false⟩
      else
        ⟨fcRaw, cp1 - cp0, true⟩)

/-- Modelled from the spec: "reconstructed text is the concatenation of
decoded pieces in table order" — each 8-bit piece decoded from its byte
range with the declared codepage, each UTF-16LE piece decoded from the
doubled byte range with the UTF-16LE whitelist interpretation. -/
def specReconstruct (dec : Dec) (cp : String) (word : Bytes)
    (ps : List PieceDescriptor) : String :=
  String.join (ps.map (fun p =>
    if p.utf16 then
      ⟨(utf16Pairs (slice word p.fc (p.fc + 2 * p.cpLen))).filterMap utf16Char⟩
    else dec cp (slice word p.fc (p.fc + p.cpLen))))

/-- A concrete single-byte codec used to instantiate the abstract decoder
in the concrete examples: keep bytes below 0x80 as their ASCII characters
and drop the rest (the behaviour of an ASCII-compatible codec under
`errors='ignore'` on such inputs). -/
def asciiDecode (b : Bytes) : String :=
  ⟨b.filterMap (fun n => if n < 128 then some (Char.ofNat n) else none)⟩

/-- A concrete decoder instance: every encoding name behaves as `asciiDecode`. -/
def dec0 : Dec := fun _ b => asciiDecode b

/-- A well-formed simple (non-complex) document: magic `0xA5EC`, flags 0,
`fcMin = 0x200`, `ccpText = 100`, and 100 bytes of `a` at `0x200`. -/
def wdSimple : Bytes :=
  patch (patch (patch (List.replicate 512 0) 0 [0xEC, 0xA5])
      0x18 [0x00, 0x02, 0, 0]) 0x4C [100, 0, 0, 0] ++ List.replicate 100 0x61

/-- A container holding only `wdSimple`. -/
def oleSimple : OleInput := ⟨true, [("WordDocument", wdSimple)], none⟩

/-- A non-complex document whose FIB has `fcMin = 0` (and `ccpText = 512`,
covering the whole stream), with 150 bytes of `a` at `0x100`. -/
def wdZeroFcMin : Bytes :=
  patch (patch (patch (List.replicate 512 0) 0 [0xEC, 0xA5])
      0x4C [0x00, 0x02, 0, 0]) 0x100 (List.replicate 150 0x61)

/-- A container holding only `wdZeroFcMin` (no table streams). -/
def oleZeroFcMin : OleInput := ⟨true, [("WordDocument", wdZeroFcMin)], none⟩

/-- A complex (fast-saved) document: magic `0xA5EC`, flags `0x0004`,
`fcClx = 1`, `lcbClx = 1` (pointing at the lone unrecognized tag byte
`0x03` of the table stream), and 150 bytes of `1` at `0x40`. -/
def wdComplex : Bytes :=
  patch (patch (patch (patch (List.replicate 512 0) 0 [0xEC, 0xA5])
      0x0A [0x04, 0x00]) 0x1A2 [1, 0, 0, 0, 1, 0, 0, 0])
    0x40 (List.replicate 150 0x31)

/-- The table stream of the complex example: its CLX window `[1, 2)` holds
the unrecognized tag byte `0x03`. -/
def tblBad : Bytes := [0x00, 0x03]

/-- A container with the complex document, its table stream, and an extra
stream of 200 bytes of `2` (long enough for the whole-container scan to
retain it). -/
def oleComplexBadTag : OleInput :=
  ⟨true, [("WordDocument", wdComplex), ("0Table", tblBad),
          ("Extra", List.replicate 200 0x32)], none⟩

/-- Bytes whose UTF-16LE reading is four CJK ideographs `一` (so a
CJK-bearing candidate exists). -/
def bytesCjk : Bytes := [0x00, 0x4E, 0x00, 0x4E, 0x00, 0x4E, 0x00, 0x4E]

/-- Bytes with no CJK reading under any candidate: ASCII `11`. -/
def bytesAscii : Bytes := [0x31, 0x31]

/-- The `WordDocument` buffer of the C7 counterexample: forty `1` bytes. -/
def wordC7 : Bytes := List.replicate 40 0x31

/-- A piece-table payload describing one compressed (8-bit) piece of ten
characters at byte offset 0: character positions `[0, 10]` followed by one
descriptor with `fc = 0x40000000`. -/
def pcdC7 : Bytes := [0, 0, 0, 0, 10, 0, 0, 0, 0, 0, 0, 0, 0, 0x40, 0, 0]

/-- C4: an input without a valid compound-file signature is rejected as
`不是有效的 OLE 文件` (the spec's `NotACompoundFileError`) before any stream
is read — the result is this error for every possible stream content, so
the heuristic stream scan never runs — and the pipeline surfaces a fatal
failure to the caller. -/
theorem claim_C4 (dec : Dec) (streams : List (String × Bytes)) (mcp : Option Nat) :
    processDocWithOlefile dec ⟨false, streams, mcp⟩ = .error .notOleFile ∧
    processDoc dec ⟨false, streams, mcp⟩ = .failed := by
  constructor
  · rfl
  · rfl

/-- C5: a valid compound file without a `WordDocument` stream is rejected as
`不是有效的 Word 文档` (the spec's `NotAWordBinaryError`), and the pipeline
surfaces a fatal failure to the caller instead of any heuristic or empty
result. -/
theorem claim_C5 (dec : Dec) (f : OleInput) (hole : f.isOle = true)
    (hws : f.streamExists "WordDocument" = false) :
    processDocWithOlefile dec f = .error .notWordDoc ∧
    processDoc dec f = .failed := by
  have h1 : processDocWithOlefile dec f = .error .notWordDoc := by
    unfold processDocWithOlefile
    rw [hole, hws]
    simp
  refine ⟨h1, ?_⟩
  unfold processDoc
  rw [h1]

/-- Witness for C5 at a concrete compound file with a single unrelated
stream. -/
theorem claim_C5_witness :
    processDocWithOlefile dec0 ⟨true, [("Other", [])], none⟩ = .error .notWordDoc ∧
    processDoc dec0 ⟨true, [("Other", [])], none⟩ = .failed :=
  claim_C5 dec0 ⟨true, [("Other", [])], none⟩ (by decide) (by decide)

/-- Counterexample to C6 as stated: the numeric codepage 437 is not in the
fixed table, and the source resolves it to `cp437`, not to the claimed
default `gbk`. -/
theorem claim_C6_counterexample :
    getDocCodepage (some 437) = "cp437" ∧ getDocCodepage (some 437) ≠ "gbk" := by
  decide

/-- C6 (amended): the fixed table maps 936→gbk, 950→big5, 932→shift_jis,
949→euc-kr, 1252→cp1252, 1251→cp1251, 65001→utf-8; `gbk` is the default
only when no codepage metadata is available (or the codepage is the falsy
0); every other numeric codepage outside the table resolves to `cp<N>`. -/
theorem claim_C6 :
    (getDocCodepage (some 936) = "gbk" ∧ getDocCodepage (some 950) = "big5" ∧
     getDocCodepage (some 932) = "shift_jis" ∧ getDocCodepage (some 949) = "euc-kr" ∧
     getDocCodepage (some 1252) = "cp1252" ∧ getDocCodepage (some 1251) = "cp1251" ∧
     getDocCodepage (some 65001) = "utf-8" ∧ getDocCodepage none = "gbk" ∧
     getDocCodepage (some 0) = "gbk") ∧
    ∀ n : Nat, n ∉ [936, 950, 932, 949, 1252, 1251, 65001] → n ≠ 0 →
      getDocCodepage (some n) = "cp" ++ toString n := by
  refine ⟨by decide, ?_⟩
  intro n hn hn0
  simp only [List.mem_cons, List.not_mem_nil, or_false, not_or] at hn
  obtain ⟨h1, h2, h3, h4, h5, h6, h7⟩ := hn
  simp [getDocCodepage, codepageName, hn0, h1, h2, h3, h4, h5, h6, h7]

/-- Witness for C6 at the concrete out-of-table codepage 850. -/
theorem claim_C6_witness : getDocCodepage (some 850) = "cp850" :=
  claim_C6.2 850 (by decide) (by decide)

/-- Counterexample to C7 as stated: a payload describing a single 8-bit
piece of ten characters at offset 0 of a forty-byte buffer; the per-piece
reconstruction required by the claim yields the ten-character piece text,
but the source's extractor returns the heuristic best decode of the whole
buffer instead. -/
theorem claim_C7_counterexample :
    parsePlcPcd pcdC7 ≠ [] ∧
    extractFromPcd dec0 "gbk" pcdC7 wordC7 ≠
      specReconstruct dec0 "gbk" wordC7 (parsePlcPcd pcdC7) := by
  decide

/-- C7 (amended): the extractor does not assemble text per piece at all —
for every piece-table payload it returns the heuristic best-scored decode of
the whole `WordDocument` buffer, and its output is independent of the
payload. -/
theorem claim_C7 (dec : Dec) (cp : String) (pcd pcd' word : Bytes) :
    extractFromPcd dec cp pcd word = fallbackExtractTextFromData dec cp word ∧
    extractFromPcd dec cp pcd word = extractFromPcd dec cp pcd' word :=
  ⟨rfl, rfl⟩

/-- C10: for a long-enough `WordDocument` stream with the right magic and
the complex flag clear, a FIB with `fcMin = 0` or `ccpText = 0` skips the
simple-text decode entirely (even when `[fcMin, fcMin+ccpText)` lies inside
the stream) and continues with piece-table/heuristic extraction. -/
theorem claim_C10 (dec : Dec) (cp : String) (f : OleInput) (wd : Bytes)
    (hwd : f.openStream "WordDocument" = wd)
    (hlen : 0x200 ≤ wd.length) (hmag : le16 wd 0x00 = 0xA5EC)
    (_hnc : le16 wd 0x0A &&& 0x0004 = 0)
    (hz : le32 wd 0x18 = 0 ∨ le32 wd 0x4C = 0) :
    extractDocTextFromOle dec cp f =
      extractFromPieceTable dec cp f wd (le16 wd 0x0A &&& 0x0200 != 0) := by
  have hcond : ¬ (le16 wd 0x0A &&& 0x0004 = 0 ∧ 0 < le32 wd 0x18 ∧
      0 < le32 wd 0x4C ∧ le32 wd 0x18 + le32 wd 0x4C ≤ wd.length) := by
    rcases hz with h | h <;> simp [h]
  simp only [extractDocTextFromOle, hwd]
  rw [if_neg (by omega), if_neg (by simp [hmag]), if_neg hcond]

/-- The length of a byte-range slice that lies inside the buffer. -/
theorem slice_length (b : Bytes) (a len : Nat) (h : a + len ≤ b.length) :
    (slice b a (a + len)).length = len := by
  simp only [slice, List.length_drop, List.length_take]
  omega

/-- The first byte of a byte-range slice is the byte at its start offset. -/
theorem slice_getD_zero (b : Bytes) (a stop : Nat) (ha : a < stop) :
    (slice b a stop).getD 0 0 = b.getD a 0 := by
  simp only [slice, List.getD_eq_getElem?_getD, List.getElem?_drop, Nat.add_zero,
    List.getElem?_take_of_lt ha]

/-- C2 (amended): for a well-formed non-complex document — magic `0xA5EC`,
complex flag clear, `fcMin > 0`, `ccpText > 0`, `fcMin + ccpText` inside the
`WordDocument` stream, and the cleaned decode longer than the 50-character
plausibility threshold — structured extraction returns exactly the cleaned
declared-codepage decode of `[fcMin, fcMin + ccpText)` via the simple path. -/
theorem claim_C2 (dec : Dec) (cp : String) (f : OleInput) (wd : Bytes)
    (hwd : f.openStream "WordDocument" = wd)
    (hlen : 0x200 ≤ wd.length) (hmag : le16 wd 0x00 = 0xA5EC)
    (hnc : le16 wd 0x0A &&& 0x0004 = 0)
    (hfc : 0 < le32 wd 0x18) (hccp : 0 < le32 wd 0x4C)
    (hrange : le32 wd 0x18 + le32 wd 0x4C ≤ wd.length)
    (hlong : 50 < (cleanDocText (dec cp
      (slice wd (le32 wd 0x18) (le32 wd 0x18 + le32 wd 0x4C)))).length) :
    extractDocTextFromOle dec cp f =
      (cleanDocText (dec cp (slice wd (le32 wd 0x18) (le32 wd 0x18 + le32 wd 0x4C))),
        Strategy.simple) := by
  have hne : cleanDocText (dec cp
      (slice wd (le32 wd 0x18) (le32 wd 0x18 + le32 wd 0x4C))) ≠ "" := by
    intro h
    rw [h] at hlong
    simp at hlong
  simp only [extractDocTextFromOle, hwd]
  rw [if_neg (by omega), if_neg (by simp [hmag]), if_pos ⟨hnc, hfc, hccp, hrange⟩,
    if_pos ⟨hne, hlong⟩]

/-- Witness for C2 at the concrete simple document. -/
theorem claim_C2_witness :
    extractDocTextFromOle dec0 "gbk" oleSimple =
      (cleanDocText (dec0 "gbk" (slice wdSimple (le32 wdSimple 0x18)
        (le32 wdSimple 0x18 + le32 wdSimple 0x4C))), Strategy.simple) :=
  claim_C2 dec0 "gbk" oleSimple wdSimple (by decide) (by decide) (by decide)
    (by decide) (by decide) (by decide) (by decide) (by decide)

/-- Counterexample to C2 as stated: a non-complex document satisfying every
condition the claim lists (magic, complex flag clear, `fcMin + ccpText`
inside the stream, cleaned decode of 150 characters — far above the
50-character threshold) whose `fcMin` is 0; the source skips the simple path
and the structured extraction does not return the cleaned decode of
`[fcMin, fcMin + ccpText)`. -/
theorem claim_C2_counterexample :
    (le16 wdZeroFcMin 0x00 = 0xA5EC ∧ le16 wdZeroFcMin 0x0A &&& 0x0004 = 0 ∧
     le32 wdZeroFcMin 0x18 + le32 wdZeroFcMin 0x4C ≤ wdZeroFcMin.length ∧
     50 < (cleanDocText (dec0 "gbk" (slice wdZeroFcMin (le32 wdZeroFcMin 0x18)
       (le32 wdZeroFcMin 0x18 + le32 wdZeroFcMin 0x4C)))).length) ∧
    (extractDocTextFromOle dec0 "gbk" oleZeroFcMin).1 ≠
      cleanDocText (dec0 "gbk" (slice wdZeroFcMin (le32 wdZeroFcMin 0x18)
        (le32 wdZeroFcMin 0x18 + le32 wdZeroFcMin 0x4C))) := by
  decide

/-- C8 (amended): for a complex document whose CLX window is valid but
begins with an unrecognized tag byte (neither `0x01` nor `0x02`), the
structured strategy fails internally without surfacing an error and the
pipeline returns normally; the text comes from heuristic extraction applied
to the `WordDocument` stream's bytes alone — not a scan of the whole
container — and the result is reported with a heuristic strategy. -/
theorem claim_C8 (dec : Dec) (f : OleInput) (wd tbl : Bytes)
    (hole : f.isOle = true) (hws : f.streamExists "WordDocument" = true)
    (hwd : f.openStream "WordDocument" = wd)
    (hlen : 0x200 ≤ wd.length) (hmag : le16 wd 0x00 = 0xA5EC)
    (hcpx : le16 wd 0x0A &&& 0x0004 ≠ 0)
    (hex : f.streamExists
      (if (le16 wd 0x0A &&& 0x0200 != 0) = true then "1Table" else "0Table") = true)
    (htbl : f.openStream
      (if (le16 wd 0x0A &&& 0x0200 != 0) = true then "1Table" else "0Table") = tbl)
    (hfc : 0 < le32 wd 0x1A2) (hlcb : 0 < le32 wd 0x1A6)
    (hwin : le32 wd 0x1A2 + le32 wd 0x1A6 ≤ tbl.length)
    (htag1 : tbl.getD (le32 wd 0x1A2) 0 ≠ 0x01)
    (htag2 : tbl.getD (le32 wd 0x1A2) 0 ≠ 0x02) :
    processDocWithOlefile dec f =
      .ok ⟨(if pyStrip (fallbackExtractTextFromData dec
              (getDocCodepage f.metaCodepage) wd) ≠ ""
            then [pyStrip (fallbackExtractTextFromData dec
              (getDocCodepage f.metaCodepage) wd)]
            else []),
           .heuristicData⟩ := by
  have hclx : parseClx dec (getDocCodepage f.metaCodepage)
      (slice tbl (le32 wd 0x1A2) (le32 wd 0x1A2 + le32 wd 0x1A6)) wd =
      (fallbackExtractTextFromData dec (getDocCodepage f.metaCodepage) wd,
        .heuristicData) := by
    have hslen : (slice tbl (le32 wd 0x1A2)
        (le32 wd 0x1A2 + le32 wd 0x1A6)).length = le32 wd 0x1A6 :=
      slice_length tbl _ _ hwin
    have hhead : (slice tbl (le32 wd 0x1A2)
        (le32 wd 0x1A2 + le32 wd 0x1A6)).getD 0 0 = tbl.getD (le32 wd 0x1A2) 0 :=
      slice_getD_zero tbl _ _ (by omega)
    unfold parseClx
    rw [show (slice tbl (le32 wd 0x1A2) (le32 wd 0x1A2 + le32 wd 0x1A6)).length + 1 =
        (le32 wd 0x1A6 - 1) + 1 + 1 from by omega]
    unfold parseClxLoop
    rw [if_pos (by omega), hhead, if_neg htag1, if_neg htag2]
  have hpt : extractFromPieceTable dec (getDocCodepage f.metaCodepage) f wd
      (le16 wd 0x0A &&& 0x0200 != 0) =
      (fallbackExtractTextFromData dec (getDocCodepage f.metaCodepage) wd,
        .heuristicData) := by
    have h426 : (0x1AA : Nat) ≤ wd.length := by omega
    have hcond : 0 < le32 wd 0x1A2 ∧ 0 < le32 wd 0x1A6 ∧
        le32 wd 0x1A2 + le32 wd 0x1A6 ≤ tbl.length := ⟨hfc, hlcb, hwin⟩
    simp only [extractFromPieceTable, hex, eq_self_iff_true, if_true, htbl]
    rw [if_pos h426, if_pos hcond, hclx]
  have hext : extractDocTextFromOle dec (getDocCodepage f.metaCodepage) f =
      (fallbackExtractTextFromData dec (getDocCodepage f.metaCodepage) wd,
        .heuristicData) := by
    simp only [extractDocTextFromOle, hwd]
    rw [if_neg (by omega), if_neg (by simp [hmag]),
      if_neg (fun h => hcpx h.1), hpt]
  unfold processDocWithOlefile
  rw [hole, hws]
  simp only [hext]
  rfl

/-- Witness for C8 at the concrete complex document with CLX tag `0x03`. -/
theorem claim_C8_witness :
    processDocWithOlefile dec0 oleComplexBadTag =
      .ok ⟨(if pyStrip (fallbackExtractTextFromData dec0
              (getDocCodepage oleComplexBadTag.metaCodepage) wdComplex) ≠ ""
            then [pyStrip (fallbackExtractTextFromData dec0
              (getDocCodepage oleComplexBadTag.metaCodepage) wdComplex)]
            else []),
           .heuristicData⟩ :=
  claim_C8 dec0 oleComplexBadTag wdComplex tblBad (by decide) (by decide)
    (by decide) (by decide) (by decide) (by decide) (by decide) (by decide)
    (by decide) (by decide) (by decide) (by decide) (by decide)

/-- Counterexample to C8 as stated: on the concrete complex document whose
CLX begins with the unrecognized tag `0x03`, the pipeline succeeds with
heuristic strategy, but its text (the heuristic decode of the
`WordDocument` buffer alone, 150 characters of `1`) differs from what the
heuristic stream-scanning strategy over the whole container would return —
so the fallback is not the whole-container scan the claim describes. -/
theorem claim_C8_counterexample :
    processDocWithOlefile dec0 oleComplexBadTag =
      .ok ⟨[String.mk (List.replicate 150 '1')], .heuristicData⟩ ∧
    fallbackExtractText dec0 (getDocCodepage oleComplexBadTag.metaCodepage)
        oleComplexBadTag ≠ String.mk (List.replicate 150 '1') := by
  decide

/-- C9: whenever the olefile pipeline succeeds via a heuristic path, the
lower-confidence caveat is appended to the recovered text exactly when that
text is longer than 100 characters and its CJK density is below 5%
(`chinese_chars < len(text) * 0.05`); otherwise the text is returned
unchanged. -/
theorem claim_C9 (dec : Dec) (f : OleInput) (r : DocRes) (t : String)
    (ts : List String)
    (hok : processDocWithOlefile dec f = .ok r)
    (_hh : r.strategy ≠ .simple)
    (hc : r.content = t :: ts) :
    (100 < t.length ∧ 20 * cjkCount t < t.length →
      processDoc dec f = .ok ⟨(t ++ caveatWarning) :: ts, r.strategy⟩) ∧
    (¬ (100 < t.length ∧ 20 * cjkCount t < t.length) →
      processDoc dec f = .ok ⟨t :: ts, r.strategy⟩) := by
  constructor <;> intro h <;>
    simp [processDoc, hok, addCaveat, hc, h]

/-- Witness for C9: on the concrete complex document the heuristic result is
150 ASCII characters (length above 100, CJK density 0%), so the caveat is
appended. -/
theorem claim_C9_witness :
    processDoc dec0 oleComplexBadTag =
      .ok ⟨[String.mk (List.replicate 150 '1') ++ caveatWarning],
        .heuristicData⟩ := by
  have h := claim_C9 dec0 oleComplexBadTag
    ⟨[String.mk (List.replicate 150 '1')], .heuristicData⟩
    (String.mk (List.replicate 150 '1')) [] (by decide) (by decide) rfl
  exact h.1 (by decide)

/-- Witness for C10 at the concrete `fcMin = 0` document. -/
theorem claim_C10_witness :
    extractDocTextFromOle dec0 "gbk" oleZeroFcMin =
      extractFromPieceTable dec0 "gbk" oleZeroFcMin wdZeroFcMin
        (le16 wdZeroFcMin 0x0A &&& 0x0200 != 0) :=
  claim_C10 dec0 "gbk" oleZeroFcMin wdZeroFcMin (by decide) (by decide)
    (by decide) (by decide) (Or.inl (by decide))

/-- The function `pickMax` returns the seed or a member of the list. -/
theorem pickMax_cases (cs : List Cand) : ∀ c : Cand,
    pickMax c cs = c ∨ pickMax c cs ∈ cs := by
  induction cs with
  | nil => exact fun c => Or.inl rfl
  | cons x cs ih =>
    intro c
    have h : pickMax c (x :: cs) = pickMax (if c.len < x.len then x else c) cs := rfl
    by_cases hc : c.len < x.len
    · rw [h, if_pos hc]
      rcases ih x with h1 | h1
      · exact Or.inr (by rw [h1]; exact List.mem_cons_self x cs)
      · exact Or.inr (List.mem_cons_of_mem x h1)
    · rw [h, if_neg hc]
      rcases ih c with h1 | h1
      · exact Or.inl h1
      · exact Or.inr (List.mem_cons_of_mem x h1)

/-- The seed's stored length never exceeds the `pickMax` result's. -/
theorem pickMax_seed_le (cs : List Cand) : ∀ c : Cand,
    c.len ≤ (pickMax c cs).len := by
  induction cs with
  | nil => exact fun c => Nat.le_refl _
  | cons x cs ih =>
    intro c
    have h : pickMax c (x :: cs) = pickMax (if c.len < x.len then x else c) cs := rfl
    rw [h]
    refine Nat.le_trans ?_ (ih _)
    by_cases hc : c.len < x.len
    · rw [if_pos hc]; exact Nat.le_of_lt hc
    · rw [if_neg hc]

/-- No member's stored length exceeds the `pickMax` result's. -/
theorem pickMax_mem_le (cs : List Cand) : ∀ (c y : Cand), y ∈ cs →
    y.len ≤ (pickMax c cs).len := by
  induction cs with
  | nil => intro c y h; cases h
  | cons x cs ih =>
    intro c y h
    have hd : pickMax c (x :: cs) = pickMax (if c.len < x.len then x else c) cs := rfl
    rw [hd]
    rcases List.mem_cons.mp h with rfl | h
    · refine Nat.le_trans ?_ (pickMax_seed_le cs _)
      by_cases hc : c.len < y.len
      · rw [if_pos hc]
      · rw [if_neg hc]; omega
    · exact ih _ y h

/-- When a CJK-bearing candidate exists, `selectBest` returns the text of a
CJK-bearing candidate of maximal stored length among the CJK-bearing ones. -/
theorem selectBest_with_cjk (rs : List Cand)
    (h : ∃ r ∈ rs, hasCJKStr r.txt = true) :
    ∃ r ∈ rs, hasCJKStr r.txt = true ∧ selectBest rs = r.txt ∧
      ∀ q ∈ rs, hasCJKStr q.txt = true → q.len ≤ r.len := by
  obtain ⟨r0, hr0, hcjk0⟩ := h
  cases rs with
  | nil => cases hr0
  | cons a rest =>
    have hf : r0 ∈ (a :: rest).filter (fun x => hasCJKStr x.txt) :=
      List.mem_filter.mpr ⟨hr0, hcjk0⟩
    cases hfe : (a :: rest).filter (fun x => hasCJKStr x.txt) with
    | nil => rw [hfe] at hf; cases hf
    | cons c cs =>
      have hsel : selectBest (a :: rest) = (pickMax c cs).txt := by
        simp only [selectBest, hfe]
      have hpmem : pickMax c cs ∈ c :: cs := by
        rcases pickMax_cases cs c with h1 | h1
        · rw [h1]; exact List.mem_cons_self _ _
        · exact List.mem_cons_of_mem _ h1
      have hpfil : pickMax c cs ∈ (a :: rest).filter (fun x => hasCJKStr x.txt) := by
        rw [hfe]; exact hpmem
      obtain ⟨hpmem', hpcjk⟩ := List.mem_filter.mp hpfil
      refine ⟨pickMax c cs, hpmem', hpcjk, hsel, ?_⟩
      intro q hq hqc
      have hqf : q ∈ (a :: rest).filter (fun x => hasCJKStr x.txt) :=
        List.mem_filter.mpr ⟨hq, hqc⟩
      rw [hfe] at hqf
      rcases List.mem_cons.mp hqf with rfl | hqf
      · exact pickMax_seed_le cs q
      · exact pickMax_mem_le cs c q hqf

/-- When no CJK-bearing candidate exists, `selectBest` returns the text of a
candidate of maximal stored length. -/
theorem selectBest_no_cjk (rs : List Cand) (hne : rs ≠ [])
    (h : ∀ r ∈ rs, hasCJKStr r.txt = false) :
    ∃ r ∈ rs, selectBest rs = r.txt ∧ ∀ q ∈ rs, q.len ≤ r.len := by
  cases rs with
  | nil => exact absurd rfl hne
  | cons a rest =>
    have hfe : (a :: rest).filter (fun x => hasCJKStr x.txt) = [] := by
      apply List.filter_eq_nil_iff.mpr
      intro x hx
      simp [h x hx]
    have hsel : selectBest (a :: rest) = (pickMax a rest).txt := by
      simp only [selectBest, hfe]
    have hpmem : pickMax a rest ∈ a :: rest := by
      rcases pickMax_cases rest a with h1 | h1
      · rw [h1]; exact List.mem_cons_self _ _
      · exact List.mem_cons_of_mem _ h1
    refine ⟨pickMax a rest, hpmem, hsel, ?_⟩
    intro q hq
    rcases List.mem_cons.mp hq with rfl | hq
    · exact pickMax_seed_le rest q
    · exact pickMax_mem_le rest a q hq

/-- Every candidate built by `_fallback_extract_text_from_data` stores its
own text's character count. -/
theorem buildResults_len (dec : Dec) (cp : String) (data : Bytes) :
    ∀ r ∈ buildResults dec cp data, r.len = r.txt.length := by
  intro r hr
  simp only [buildResults, List.mem_append] at hr
  rcases hr with (hr | hr) | hr
  · split at hr
    · rcases List.mem_cons.mp hr with rfl | h
      · rfl
      · cases h
    · cases hr
  · split at hr
    · rcases List.mem_cons.mp hr with rfl | h
      · rfl
      · cases h
    · cases hr
  · obtain ⟨e, _, he⟩ := List.mem_filterMap.mp hr
    split at he
    · cases he; rfl
    · cases he

/-- C1: among the decode candidates built from one byte buffer, the scorer
always selects a CJK-bearing candidate of maximal character count whenever
any CJK-bearing candidate exists (regardless of the character counts of the
non-CJK candidates), and otherwise selects a candidate of maximal character
count. -/
theorem claim_C1 (dec : Dec) (cp : String) (data : Bytes) :
    ((∃ r ∈ buildResults dec cp data, hasCJKStr r.txt = true) →
      ∃ r ∈ buildResults dec cp data, hasCJKStr r.txt = true ∧
        fallbackExtractTextFromData dec cp data = r.txt ∧
        ∀ q ∈ buildResults dec cp data, hasCJKStr q.txt = true →
          q.txt.length ≤ r.txt.length) ∧
    ((∀ r ∈ buildResults dec cp data, hasCJKStr r.txt = false) →
      buildResults dec cp data ≠ [] →
      ∃ r ∈ buildResults dec cp data,
        fallbackExtractTextFromData dec cp data = r.txt ∧
        ∀ q ∈ buildResults dec cp data, q.txt.length ≤ r.txt.length) := by
  constructor
  · intro h
    obtain ⟨r, hr, hcjk, hsel, hmax⟩ := selectBest_with_cjk _ h
    refine ⟨r, hr, hcjk, hsel, ?_⟩
    intro q hq hqc
    calc q.txt.length = q.len := (buildResults_len dec cp data q hq).symm
      _ ≤ r.len := hmax q hq hqc
      _ = r.txt.length := buildResults_len dec cp data r hr
  · intro h hne
    obtain ⟨r, hr, hsel, hmax⟩ := selectBest_no_cjk _ hne h
    refine ⟨r, hr, hsel, ?_⟩
    intro q hq
    calc q.txt.length = q.len := (buildResults_len dec cp data q hq).symm
      _ ≤ r.len := hmax q hq
      _ = r.txt.length := buildResults_len dec cp data r hr

/-- Witness for C1: on `bytesCjk` a CJK-bearing candidate exists and the
CJK branch applies; on `bytesAscii` no candidate bears CJK and the
longest-overall branch applies. -/
theorem claim_C1_witness :
    (∃ r ∈ buildResults dec0 "gbk" bytesCjk, hasCJKStr r.txt = true ∧
      fallbackExtractTextFromData dec0 "gbk" bytesCjk = r.txt ∧
      ∀ q ∈ buildResults dec0 "gbk" bytesCjk, hasCJKStr q.txt = true →
        q.txt.length ≤ r.txt.length) ∧
    (∃ r ∈ buildResults dec0 "gbk" bytesAscii,
      fallbackExtractTextFromData dec0 "gbk" bytesAscii = r.txt ∧
      ∀ q ∈ buildResults dec0 "gbk" bytesAscii, q.txt.length ≤ r.txt.length) :=
  ⟨(claim_C1 dec0 "gbk" bytesCjk).1 (by decide),
   (claim_C1 dec0 "gbk" bytesAscii).2 (by decide) (by decide)⟩

/-- Characters output by the run-collapsing pass come from its input or are
the inserted space. -/
theorem collapseGo_subset (l : List Char) : ∀ (b : Bool) (c : Char),
    c ∈ collapseGo b l → c ∈ l ∨ c = ' ' := by
  induction l with
  | nil => intro b c h; cases h
  | cons x xs ih =>
    intro b c h
    by_cases hx : isAllowed x
    · rw [show collapseGo b (x :: xs) = x :: collapseGo false xs from by
        simp [collapseGo, hx]] at h
      rcases List.mem_cons.mp h with rfl | h
      · exact Or.inl (List.mem_cons_self _ _)
      · rcases ih false c h with h | h
        · exact Or.inl (List.mem_cons_of_mem _ h)
        · exact Or.inr h
    · cases b with
      | true =>
        rw [show collapseGo true (x :: xs) = collapseGo true xs from by
          simp [collapseGo, hx]] at h
        rcases ih true c h with h | h
        · exact Or.inl (List.mem_cons_of_mem _ h)
        · exact Or.inr h
      | false =>
        rw [show collapseGo false (x :: xs) = ' ' :: collapseGo true xs from by
          simp [collapseGo, hx]] at h
        rcases List.mem_cons.mp h with rfl | h
        · exact Or.inr rfl
        · rcases ih true c h with h | h
          · exact Or.inl (List.mem_cons_of_mem _ h)
          · exact Or.inr h

/-- Every character output by the run-collapsing pass is allowed. -/
theorem collapseGo_allowed_mem (l : List Char) : ∀ (b : Bool) (c : Char),
    c ∈ collapseGo b l → isAllowed c = true := by
  induction l with
  | nil => intro b c h; cases h
  | cons x xs ih =>
    intro b c h
    by_cases hx : isAllowed x
    · rw [show collapseGo b (x :: xs) = x :: collapseGo false xs from by
        simp [collapseGo, hx]] at h
      rcases List.mem_cons.mp h with rfl | h
      · exact hx
      · exact ih false c h
    · cases b with
      | true =>
        rw [show collapseGo true (x :: xs) = collapseGo true xs from by
          simp [collapseGo, hx]] at h
        exact ih true c h
      | false =>
        rw [show collapseGo false (x :: xs) = ' ' :: collapseGo true xs from by
          simp [collapseGo, hx]] at h
        rcases List.mem_cons.mp h with rfl | h
        · decide
        · exact ih true c h

/-- The run-collapsing pass is the identity on all-allowed inputs. -/
theorem collapseGo_of_allowed (l : List Char)
    (h : ∀ c ∈ l, isAllowed c = true) : ∀ b, collapseGo b l = l := by
  induction l with
  | nil => intro b; rfl
  | cons x xs ih =>
    intro b
    have hx : isAllowed x = true := h x (List.mem_cons_self _ _)
    simp [collapseGo, hx,
      ih (fun c hc => h c (List.mem_cons_of_mem _ hc)) false]

/-- The function `splitLines` never returns the empty list of lines. -/
theorem splitLines_ne_nil (l : List Char) : splitLines l ≠ [] := by
  cases l with
  | nil => simp [splitLines]
  | cons c cs =>
    simp only [splitLines]
    by_cases hc : c = '\n'
    · simp [hc]
    · rw [if_neg hc]
      cases h : splitLines cs <;> simp

/-- Characters of a split line come from the split input. -/
theorem mem_splitLines_subset (l : List Char) :
    ∀ ln ∈ splitLines l, ∀ c ∈ ln, c ∈ l := by
  induction l with
  | nil =>
    intro ln hln c hc
    simp only [splitLines, List.mem_singleton] at hln
    subst hln
    cases hc
  | cons x xs ih =>
    intro ln hln c hc
    simp only [splitLines] at hln
    by_cases hx : x = '\n'
    · rw [if_pos hx] at hln
      rcases List.mem_cons.mp hln with rfl | hln
      · cases hc
      · exact List.mem_cons_of_mem _ (ih ln hln c hc)
    · rw [if_neg hx] at hln
      cases hsp : splitLines xs with
      | nil => exact absurd hsp (splitLines_ne_nil xs)
      | cons l0 ls =>
        rw [hsp] at hln
        rcases List.mem_cons.mp hln with rfl | hln
        · rcases List.mem_cons.mp hc with rfl | hc
          · exact List.mem_cons_self _ _
          · exact List.mem_cons_of_mem _
              (ih l0 (by rw [hsp]; exact List.mem_cons_self _ _) c hc)
        · exact List.mem_cons_of_mem _
            (ih ln (by rw [hsp]; exact List.mem_cons_of_mem _ hln) c hc)

/-- Split lines contain no newline character. -/
theorem mem_splitLines_no_nl (l : List Char) :
    ∀ ln ∈ splitLines l, '\n' ∉ ln := by
  induction l with
  | nil =>
    intro ln hln
    simp only [splitLines, List.mem_singleton] at hln
    subst hln
    simp
  | cons x xs ih =>
    intro ln hln
    simp only [splitLines] at hln
    by_cases hx : x = '\n'
    · rw [if_pos hx] at hln
      rcases List.mem_cons.mp hln with rfl | hln
      · simp
      · exact ih ln hln
    · rw [if_neg hx] at hln
      cases hsp : splitLines xs with
      | nil => exact absurd hsp (splitLines_ne_nil xs)
      | cons l0 ls =>
        rw [hsp] at hln
        rcases List.mem_cons.mp hln with rfl | hln
        · intro hmem
          rcases List.mem_cons.mp hmem with h | h
          · exact hx h.symm
          · exact ih l0 (by rw [hsp]; exact List.mem_cons_self _ _) h
        · exact ih ln (by rw [hsp]; exact List.mem_cons_of_mem _ hln)

/-- Splitting a newline-free list yields that single line. -/
theorem splitLines_no_nl (l : List Char) (h : '\n' ∉ l) : splitLines l = [l] := by
  induction l with
  | nil => rfl
  | cons x xs ih =>
    have hx : x ≠ '\n' := fun he => h (he ▸ List.mem_cons_self _ _)
    simp only [splitLines, if_neg hx]
    rw [ih (fun hm => h (List.mem_cons_of_mem _ hm))]

/-- Splitting after a newline-free head line peels it off. -/
theorem splitLines_append_nl (l rest : List Char) (h : '\n' ∉ l) :
    splitLines (l ++ '\n' :: rest) = l :: splitLines rest := by
  induction l with
  | nil => simp [splitLines]
  | cons x xs ih =>
    have hx : x ≠ '\n' := fun he => h (he ▸ List.mem_cons_self _ _)
    simp only [List.cons_append, List.append_eq, splitLines, if_neg hx]
    rw [ih (fun hm => h (List.mem_cons_of_mem _ hm))]

/-- Splitting undoes joining for a non-empty list of newline-free lines. -/
theorem splitLines_joinLines (ls : List (List Char)) (hne : ls ≠ [])
    (h : ∀ ln ∈ ls, '\n' ∉ ln) : splitLines (joinLines ls) = ls := by
  induction ls with
  | nil => exact absurd rfl hne
  | cons l ls ih =>
    cases ls with
    | nil => exact splitLines_no_nl l (h l (List.mem_cons_self _ _))
    | cons l2 ls2 =>
      rw [show joinLines (l :: l2 :: ls2) = l ++ '\n' :: joinLines (l2 :: ls2)
          from rfl,
        splitLines_append_nl l _ (h l (List.mem_cons_self _ _)),
        ih (by simp) (fun ln hln => h ln (List.mem_cons_of_mem _ hln))]

/-- Characters of a joined line list come from some line or are the
inserted newline. -/
theorem mem_joinLines (ls : List (List Char)) :
    ∀ c ∈ joinLines ls, (∃ ln ∈ ls, c ∈ ln) ∨ c = '\n' := by
  induction ls with
  | nil => intro c h; cases h
  | cons l ls ih =>
    cases ls with
    | nil =>
      intro c h
      exact Or.inl ⟨l, List.mem_cons_self _ _, h⟩
    | cons l2 ls2 =>
      intro c h
      rw [show joinLines (l :: l2 :: ls2) = l ++ '\n' :: joinLines (l2 :: ls2)
          from rfl] at h
      rcases List.mem_append.mp h with h | h
      · exact Or.inl ⟨l, List.mem_cons_self _ _, h⟩
      · rcases List.mem_cons.mp h with rfl | h
        · exact Or.inr rfl
        · rcases ih c h with ⟨ln, hln, hc⟩ | h
          · exact Or.inl ⟨ln, List.mem_cons_of_mem _ hln, hc⟩
          · exact Or.inr h

/-- The function `dropWhile` removes an initial segment: its result is a `drop`. -/
theorem dropWhile_eq_drop (p : Char → Bool) (l : List Char) :
    ∃ k, l.dropWhile p = l.drop k := by
  induction l with
  | nil => exact ⟨0, rfl⟩
  | cons x xs ih =>
    by_cases hx : p x
    · obtain ⟨k, hk⟩ := ih
      exact ⟨k + 1, by simp [List.dropWhile_cons, hx, hk]⟩
    · exact ⟨0, by simp [List.dropWhile_cons, hx]⟩

/-- The head of a `dropWhile` result does not satisfy the predicate. -/
theorem dropWhile_headNot (p : Char → Bool) (l : List Char) :
    ∀ x, (l.dropWhile p).head? = some x → p x = false := by
  induction l with
  | nil => intro x h; cases h
  | cons y ys ih =>
    intro x h
    by_cases hy : p y
    · rw [List.dropWhile_cons_of_pos hy] at h
      exact ih x h
    · rw [List.dropWhile_cons_of_neg hy] at h
      cases h
      simpa using hy

/-- The function `dropWhile` is the identity when the head does not satisfy the
predicate. -/
theorem dropWhile_eq_self_of_headNot (p : Char → Bool) (l : List Char)
    (h : ∀ x, l.head? = some x → p x = false) : l.dropWhile p = l := by
  cases l with
  | nil => rfl
  | cons x xs => exact List.dropWhile_cons_of_neg (by simp [h x rfl])

/-- A non-empty `take` has the same head as the original list. -/
theorem take_head? (l : List Char) (m : Nat) (hne : l.take m ≠ []) :
    (l.take m).head? = l.head? := by
  cases l with
  | nil => simp at hne
  | cons x xs =>
    cases m with
    | zero => simp at hne
    | succ m => rfl

/-- The head of a stripped line is not whitespace. -/
theorem trimLine_headNot (l : List Char) :
    ∀ x, (trimLine l).head? = some x → isPySpace x = false := by
  intro x hx
  obtain ⟨k, hk⟩ :=
    dropWhile_eq_drop isPySpace (l.dropWhile isPySpace).reverse
  have hrev : trimLine l = (l.dropWhile isPySpace).take
      ((l.dropWhile isPySpace).length - k) := by
    unfold trimLine
    rw [hk, List.drop_reverse, List.reverse_reverse]
  have hne : trimLine l ≠ [] := by
    intro h
    rw [h] at hx
    cases hx
  rw [hrev] at hx hne
  rw [take_head? _ _ hne] at hx
  exact dropWhile_headNot isPySpace l x hx

/-- The last character of a stripped line is not whitespace. -/
theorem trimLine_lastNot (l : List Char) :
    ∀ x, (trimLine l).reverse.head? = some x → isPySpace x = false := by
  intro x hx
  unfold trimLine at hx
  rw [List.reverse_reverse] at hx
  exact dropWhile_headNot _ _ x hx

/-- Stripping is the identity on lines already stripped at both ends. -/
theorem trimLine_of_trimmed (l : List Char)
    (h1 : ∀ x, l.head? = some x → isPySpace x = false)
    (h2 : ∀ x, l.reverse.head? = some x → isPySpace x = false) :
    trimLine l = l := by
  unfold trimLine
  rw [dropWhile_eq_self_of_headNot _ _ h1,
    dropWhile_eq_self_of_headNot _ _ h2, List.reverse_reverse]

/-- Python `strip` is idempotent. -/
theorem trimLine_idem (l : List Char) : trimLine (trimLine l) = trimLine l :=
  trimLine_of_trimmed _ (trimLine_headNot l) (trimLine_lastNot l)

/-- Characters of a stripped line come from the original line. -/
theorem trimLine_subset (l : List Char) : ∀ c ∈ trimLine l, c ∈ l := by
  intro c hc
  unfold trimLine at hc
  rw [List.mem_reverse] at hc
  obtain ⟨k, hk⟩ := dropWhile_eq_drop isPySpace (l.dropWhile isPySpace).reverse
  rw [hk] at hc
  have hc2 : c ∈ (l.dropWhile isPySpace).reverse := List.mem_of_mem_drop hc
  rw [List.mem_reverse] at hc2
  obtain ⟨k2, hk2⟩ := dropWhile_eq_drop isPySpace l
  rw [hk2] at hc2
  exact List.mem_of_mem_drop hc2

/-- Mapping a function that fixes every member is the identity. -/
theorem map_eq_self_of_fix {α : Type} (f : α → α) :
    ∀ l : List α, (∀ a ∈ l, f a = a) → l.map f = l := by
  intro l h
  induction l with
  | nil => rfl
  | cons x xs ih =>
    simp [h x (List.mem_cons_self _ _),
      ih (fun a ha => h a (List.mem_cons_of_mem _ ha))]

/-- The invariants of the lines produced by the cleaner: no newline, already
stripped, passing the keep filter, and made only of allowed, non-removed
characters. -/
theorem cleanLines_facts (l : List Char) :
    ∀ ln ∈ cleanLines l,
      ('\n' ∉ ln) ∧ trimLine ln = ln ∧ keepLine ln = true ∧
      ∀ c ∈ ln, isAllowed c = true ∧ isRemovedCtrl c = false := by
  intro ln hln
  unfold cleanLines at hln
  have hkeep : keepLine ln = true := List.of_mem_filter hln
  have hln' := List.mem_of_mem_filter hln
  obtain ⟨ln0, hln0, rfl⟩ := List.mem_map.mp hln'
  refine ⟨?_, trimLine_idem ln0, hkeep, ?_⟩
  · intro hmem
    exact mem_splitLines_no_nl _ ln0 hln0 (trimLine_subset _ _ hmem)
  · intro c hc
    have hc2 : c ∈ collapseGo false (removeCtrl l) :=
      mem_splitLines_subset _ ln0 hln0 c (trimLine_subset _ _ hc)
    refine ⟨collapseGo_allowed_mem _ false c hc2, ?_⟩
    rcases collapseGo_subset _ false c hc2 with h | rfl
    · have := (List.mem_filter.mp h).2
      simpa using this
    · decide

/-- C3: the text cleaner is idempotent — cleaning already-cleaned text
yields the same text. -/
theorem claim_C3 (s : String) : cleanDocText (cleanDocText s) = cleanDocText s := by
  have hfacts := cleanLines_facts s.toList
  unfold cleanDocText
  rw [show (String.mk (joinLines (cleanLines s.toList))).toList =
      joinLines (cleanLines s.toList) from rfl]
  set L := cleanLines s.toList with hL
  by_cases hnil : L = []
  · rw [hnil]
    rfl
  · have hchar : ∀ c ∈ joinLines L,
        isAllowed c = true ∧ isRemovedCtrl c = false := by
      intro c hc
      rcases mem_joinLines _ c hc with ⟨ln, hln, hcln⟩ | rfl
      · exact (hfacts ln hln).2.2.2 c hcln
      · exact ⟨by decide, by decide⟩
    have h1 : removeCtrl (joinLines L) = joinLines L := by
      unfold removeCtrl
      apply List.filter_eq_self.mpr
      intro a ha
      simp [(hchar a ha).2]
    have h2 : collapseGo false (joinLines L) = joinLines L :=
      collapseGo_of_allowed _ (fun c hc => (hchar c hc).1) false
    have h3 : splitLines (joinLines L) = L :=
      splitLines_joinLines _ hnil (fun ln hln => (hfacts ln hln).1)
    have h4 : L.map trimLine = L :=
      map_eq_self_of_fix _ _ (fun ln hln => (hfacts ln hln).2.1)
    have h5 : L.filter keepLine = L :=
      List.filter_eq_self.mpr (fun ln hln => (hfacts ln hln).2.2.1)
    have key : cleanLines (joinLines L) = L := by
      unfold cleanLines
      rw [h1, h2, h3, h4, h5]
    rw [key]

end DocReader
